import Mathlib

/-!
Verification of the AgentPress core (suna TypeScript port): the XML tool-call
parser (`packages/agentpress/src/xml-tool-parser.ts`, class `XMLToolParser`)
and the tool registry (`packages/agentpress/src/tool-registry.ts`, class
`ToolRegistry`).

The embedding is shallow: text is `List Char`, JavaScript runtime values are
an inductive type, JS `Record<string, T>` objects are association lists whose
insertion keeps the original position of an existing key (JS string-keyed
property order), and each method of the two classes becomes a Lean function
translated clause by clause from the TypeScript source.
-/

namespace Suna

/-- JS object property update: assigning to an existing key keeps its
position in the property order, a new key is appended at the end.  This is
the semantics of `obj[k] = v` for string keys in JavaScript. -/
def insertReplace {α β : Type} [DecidableEq α] : List (α × β) → α → β → List (α × β)
  | [], k, v => [(k, v)]
  | (k', v') :: rest, k, v =>
    if k' = k then (k, v) :: rest else (k', v') :: insertReplace rest k v

/-- JSON-like runtime value, the codomain of the parser's parameter
coercion (`any` in the TypeScript source): null, booleans, numbers,
strings, arrays and objects.  Numbers are modelled exactly as rationals;
every numeric literal appearing in the claims is representable. -/
inductive JsonValue where
  | null
  | bool (b : Bool)
  | num (q : ℚ)
  | str (s : List Char)
  | arr (elems : List JsonValue)
  | obj (fields : List (List Char × JsonValue))

/-- Decimal digit test, `[0-9]`. -/
def isDigitCh (c : Char) : Bool := '0' ≤ c && c ≤ '9'

/-- Value of a string of decimal digits. -/
def digitsVal (ds : List Char) : Nat := ds.foldl (fun a c => a * 10 + (c.toNat - 48)) 0

/-- Rational value of a numeric literal with integer part `ip`, fractional
part `fp` and decimal exponent `ex`: the exact value
`(ip.fp) * 10 ^ ex`, built with `mkRat` so that it evaluates by kernel
reduction. -/
def qOfParts (ip fp : List Char) (ex : Int) : ℚ :=
  let e : Int := ex - fp.length
  if 0 ≤ e then mkRat ((digitsVal (ip ++ fp) * 10 ^ e.toNat : Nat) : Int) 1
  else mkRat ((digitsVal (ip ++ fp) : Nat) : Int) (10 ^ (-e).toNat)

/-- Hexadecimal digit value. -/
def hexVal (c : Char) : Option Nat :=
  if '0' ≤ c ∧ c ≤ '9' then some (c.toNat - 48)
  else if 'a' ≤ c ∧ c ≤ 'f' then some (c.toNat - 87)
  else if 'A' ≤ c ∧ c ≤ 'F' then some (c.toNat - 55)
  else none

/-- JSON string escape characters after a backslash (other than `\uXXXX`). -/
def jsonEscChar (c : Char) : Option Char :=
  if c = '"' then some '"'
  else if c = '\\' then some '\\'
  else if c = '/' then some '/'
  else if c = 'b' then some '\x08'
  else if c = 'f' then some '\x0c'
  else if c = 'n' then some '\n'
  else if c = 'r' then some '\r'
  else if c = 't' then some '\t'
  else none

/-- Parse the remainder of a JSON string after the opening quote, returning
the decoded characters and the text after the closing quote.  `\uXXXX`
escapes are decoded as a code point (surrogate halves, which `Char.ofNat`
maps to a default, do not occur in any claim). -/
def jsonStringRest : List Char → Option (List Char × List Char)
  | [] => none
  | '"' :: rest => some ([], rest)
  | '\\' :: 'u' :: h1 :: h2 :: h3 :: h4 :: rest =>
    match hexVal h1, hexVal h2, hexVal h3, hexVal h4 with
    | some a, some b, some c, some d =>
      match jsonStringRest rest with
      | some (cs, r) => some (Char.ofNat (((a * 16 + b) * 16 + c) * 16 + d) :: cs, r)
      | none => none
    | _, _, _, _ => none
  | '\\' :: e :: rest =>
    match jsonEscChar e with
    | some c =>
      match jsonStringRest rest with
      | some (cs, r) => some (c :: cs, r)
      | none => none
    | none => none
  | c :: rest =>
    if c.toNat < 32 then none
    else
      match jsonStringRest rest with
      | some (cs, r) => some (c :: cs, r)
      | none => none

/-- Exponent digits of a JSON number (after `e`/`E`), with optional sign. -/
def jsonExpDigits (ip fp : List Char) (r : List Char) : Option (ℚ × List Char) :=
  let sg : Int := match r with
    | '+' :: _ => 1
    | '-' :: _ => -1
    | _ => 1
  let r2 : List Char := match r with
    | '+' :: t => t
    | '-' :: t => t
    | _ => r
  let ed := r2.takeWhile isDigitCh
  if ed = [] then none
  else some (qOfParts ip fp (sg * (digitsVal ed : Int)), r2.dropWhile isDigitCh)

/-- Optional exponent part of a JSON number. -/
def jsonExpPart (ip fp : List Char) (s : List Char) : Option (ℚ × List Char) :=
  match s with
  | 'e' :: r => jsonExpDigits ip fp r
  | 'E' :: r => jsonExpDigits ip fp r
  | _ => some (qOfParts ip fp 0, s)

/-- Unsigned JSON number: integer part (`0` or a nonzero-led digit string),
optional fraction, optional exponent, per the JSON grammar. -/
def jsonNumberCore (s : List Char) : Option (ℚ × List Char) :=
  match s with
  | [] => none
  | c :: r =>
    if isDigitCh c = false then none
    else
      let ip : List Char := if c = '0' then [c] else c :: r.takeWhile isDigitCh
      let s2 : List Char := if c = '0' then r else r.dropWhile isDigitCh
      match s2 with
      | '.' :: r2 =>
        let fp := r2.takeWhile isDigitCh
        if fp = [] then none
        else jsonExpPart ip fp (r2.dropWhile isDigitCh)
      | _ => jsonExpPart ip [] s2

/-- JSON number with optional leading minus sign. -/
def jsonNumber (s : List Char) : Option (ℚ × List Char) :=
  match s with
  | '-' :: r =>
    match jsonNumberCore r with
    | some (q, rest) => some (-q, rest)
    | none => none
  | _ => jsonNumberCore s

/-- The insignificant whitespace accepted by the JSON grammar. -/
def jsonSkipWs (s : List Char) : List Char :=
  s.dropWhile (fun c => c = ' ' || c = '\t' || c = '\n' || c = '\r')

/-- Parsing mode of the recursive-descent JSON parser: a single value, the
element loop of an array, or the member loop of an object.  A mode
parameter instead of mutual recursion keeps the recursion structural in the
fuel, so that applications reduce definitionally. -/
inductive JMode where
  | val
  | arrLoop (acc : List JsonValue)
  | objLoop (acc : List (List Char × JsonValue))

/-- Recursive-descent JSON parser (the model of `JSON.parse`): in mode
`val` it parses one JSON value and returns it with the remaining text; the
loop modes consume comma-separated elements or members up to the closing
bracket or brace.  A duplicate object key overwrites the earlier value in
place, as property assignment does in JavaScript.  `fuel` bounds the
recursion; `jsonParse` supplies more fuel than any input can consume. -/
def jsonAux : Nat → JMode → List Char → Option (JsonValue × List Char)
  | 0, _, _ => none
  | fuel + 1, JMode.val, s =>
    (match jsonSkipWs s with
     | [] => none
     | '"' :: r =>
       (match jsonStringRest r with
        | some (cs, rest) => some (JsonValue.str cs, rest)
        | none => none)
     | 't' :: 'r' :: 'u' :: 'e' :: r => some (JsonValue.bool true, r)
     | 'f' :: 'a' :: 'l' :: 's' :: 'e' :: r => some (JsonValue.bool false, r)
     | 'n' :: 'u' :: 'l' :: 'l' :: r => some (JsonValue.null, r)
     | '[' :: r =>
       (match jsonSkipWs r with
        | ']' :: r2 => some (JsonValue.arr [], r2)
        | _ => jsonAux fuel (JMode.arrLoop []) r)
     | '\x7b' :: r =>
       (match jsonSkipWs r with
        | '\x7d' :: r2 => some (JsonValue.obj [], r2)
        | _ => jsonAux fuel (JMode.objLoop []) r)
     | rest =>
       (match jsonNumber rest with
        | some (q, r) => some (JsonValue.num q, r)
        | none => none))
  | fuel + 1, JMode.arrLoop acc, s =>
    (match jsonAux fuel JMode.val s with
     | none => none
     | some (v, r) =>
       match jsonSkipWs r with
       | ',' :: r2 => jsonAux fuel (JMode.arrLoop (acc ++ [v])) r2
       | ']' :: r2 => some (JsonValue.arr (acc ++ [v]), r2)
       | _ => none)
  | fuel + 1, JMode.objLoop acc, s =>
    (match jsonSkipWs s with
     | '"' :: r =>
       (match jsonStringRest r with
        | none => none
        | some (key, r2) =>
          match jsonSkipWs r2 with
          | ':' :: r3 =>
            (match jsonAux fuel JMode.val r3 with
             | none => none
             | some (v, r4) =>
               match jsonSkipWs r4 with
               | ',' :: r5 => jsonAux fuel (JMode.objLoop (insertReplace acc key v)) r5
               | '\x7d' :: r5 => some (JsonValue.obj (insertReplace acc key v), r5)
               | _ => none)
          | _ => none)
     | _ => none)

/-- Model of `JSON.parse(value)`: parse one JSON value and require that only
whitespace remains.  Two fuel units per character dominate the recursion
depth, since every nesting step consumes at least one character. -/
def jsonParse (s : List Char) : Option JsonValue :=
  match jsonAux (2 * s.length + 2) JMode.val s with
  | some (v, rest) => if jsonSkipWs rest = [] then some v else none
  | none => none

/-- JavaScript whitespace (the characters stripped by `String.prototype.trim`
and matched by the regex class `\s`): ASCII whitespace, NBSP, the line and
paragraph separators and the BOM.  The remaining Unicode `Zs` code points,
which occur in no claim, are omitted. -/
def isJsSpace (c : Char) : Bool :=
  c = ' ' || c = '\t' || c = '\n' || c = '\r' || c = '\x0b' || c = '\x0c' ||
  c = '\u00A0' || c = '\u2028' || c = '\u2029' || c = '\uFEFF'

/-- Model of `String.prototype.trim`: strip JS whitespace at both ends. -/
def jsTrim (s : List Char) : List Char :=
  ((s.dropWhile isJsSpace).reverse.dropWhile isJsSpace).reverse

/-- Result of JavaScript's number conversion: `NaN`, a signed infinity, or a
finite value (modelled exactly as a rational). -/
inductive JSNum where
  | nan
  | inf (negative : Bool)
  | num (q : ℚ)

/-- Exponent digits of a JS decimal literal (after `e`/`E`), with optional
sign; the whole remaining text must be consumed. -/
def jsExpDigits (ip fp : List Char) (r : List Char) : Option ℚ :=
  let sg : Int := match r with
    | '+' :: _ => 1
    | '-' :: _ => -1
    | _ => 1
  let r2 : List Char := match r with
    | '+' :: t => t
    | '-' :: t => t
    | _ => r
  let ed := r2.takeWhile isDigitCh
  if ed = [] then none
  else if r2.dropWhile isDigitCh ≠ [] then none
  else some (qOfParts ip fp (sg * (digitsVal ed : Int)))

/-- Optional exponent part of a JS decimal literal. -/
def jsExpPart (ip fp : List Char) (s : List Char) : Option ℚ :=
  match s with
  | [] => some (qOfParts ip fp 0)
  | 'e' :: r => jsExpDigits ip fp r
  | 'E' :: r => jsExpDigits ip fp r
  | _ => none

/-- Unsigned JS decimal literal: `digits [. digits] [exp]` or `. digits
[exp]`; unlike JSON it allows leading zeros, a bare trailing dot and a
leading dot. -/
def jsDecimalTail (s : List Char) : Option ℚ :=
  let ds1 := s.takeWhile isDigitCh
  let s2 := s.dropWhile isDigitCh
  match s2 with
  | '.' :: r =>
    let ds2 := r.takeWhile isDigitCh
    if ds1 = [] ∧ ds2 = [] then none
    else jsExpPart ds1 ds2 (r.dropWhile isDigitCh)
  | _ =>
    if ds1 = [] then none
    else jsExpPart ds1 [] s2

/-- Signed tail of a JS string numeric literal: `Infinity` or a decimal
literal, negated when the sign was `-`. -/
def jsSignedTail (neg : Bool) (r : List Char) : JSNum :=
  if r = "Infinity".data then JSNum.inf neg
  else
    match jsDecimalTail r with
    | some q => JSNum.num (if neg then -q else q)
    | none => JSNum.nan

/-- Digits of a non-decimal integer literal in the given base, which must be
nonempty and fully valid. -/
def radixValAux (digit : Char → Option Nat) (base : Nat) : List Char → Nat → Option Nat
  | [], acc => some acc
  | c :: r, acc =>
    match digit c with
    | some d => radixValAux digit base r (acc * base + d)
    | none => none

/-- Non-decimal integer literal body (after `0x`/`0o`/`0b`): `NaN` when
empty or containing an invalid digit. -/
def jsRadixNum (digit : Char → Option Nat) (base : Nat) (r : List Char) : JSNum :=
  match r with
  | [] => JSNum.nan
  | _ =>
    match radixValAux digit base r 0 with
    | some n => JSNum.num (mkRat (n : Int) 1)
    | none => JSNum.nan

/-- Binary digit value. -/
def binVal (c : Char) : Option Nat :=
  if c = '0' then some 0 else if c = '1' then some 1 else none

/-- Octal digit value. -/
def octVal (c : Char) : Option Nat :=
  if '0' ≤ c ∧ c ≤ '7' then some (c.toNat - 48) else none

/-- Model of JavaScript `Number(string)` (ECMAScript `ToNumber` on a
string): trim whitespace; the empty string converts to `0`; then a string
numeric literal — a signed decimal literal or `Infinity`, or an unsigned
`0x`/`0o`/`0b` integer literal — and anything else is `NaN`. -/
def jsStringToNumber (s : List Char) : JSNum :=
  match jsTrim s with
  | [] => JSNum.num 0
  | '0' :: 'x' :: r => jsRadixNum hexVal 16 r
  | '0' :: 'X' :: r => jsRadixNum hexVal 16 r
  | '0' :: 'o' :: r => jsRadixNum octVal 8 r
  | '0' :: 'O' :: r => jsRadixNum octVal 8 r
  | '0' :: 'b' :: r => jsRadixNum binVal 2 r
  | '0' :: 'B' :: r => jsRadixNum binVal 2 r
  | '+' :: r => jsSignedTail false r
  | '-' :: r => jsSignedTail true r
  | t => jsSignedTail false t

/-- ASCII lower-casing, the model of `String.prototype.toLowerCase` (which
agrees with it on every string occurring in the claims). -/
def toLowerAscii (s : List Char) : List Char := s.map Char.toLower

/-!
The XML tool-call parser, `class XMLToolParser` of
`packages/agentpress/src/xml-tool-parser.ts`.  Its three regexes all have
the shape `<tag ...>(.*?)</tag>` with the `g` and `s` flags and are
consumed with `matchAll` (or `replace`), i.e. by repeated leftmost
non-overlapping matching; the scanners below implement exactly that
discipline.  Because each pattern starts with a fixed literal whose only
`<` is its first character, and because the lazy `(.*?)` group before a
fixed literal matches up to the first occurrence of that literal, each
single match is computed by deterministic scanning with no backtracking:

* `FUNCTION_CALLS_PATTERN = <function_calls>(.*?)</function_calls>`: the
  leftmost match starts at the first occurrence of the opening literal and
  its group runs to the first occurrence of the closing literal after it
  (if the first opening occurrence has no closing occurrence after it,
  no later one has either, so there is no match at all).
* `INVOKE_PATTERN = <invoke\s+name="([^"]+)">(.*?)</invoke>` (and the
  analogous `PARAMETER_PATTERN`): at a candidate position the engine
  matches the literal `<invoke`, then one or more whitespace characters by
  maximal munch (exact, since no whitespace character equals the following
  required `n`), the literal `name="`, one or more non-quote characters by
  maximal munch (exact, since the following required character is `"`),
  the literal `">`, and finally the lazy group up to the first occurrence
  of the closing literal.
-/

/-- Split `s` at the leftmost occurrence of `pat`: `some (a, b)` with
`s = a ++ pat ++ b` and `a` shortest, `none` when `pat` does not occur. -/
def splitFirst (pat : List Char) : List Char → Option (List Char × List Char)
  | [] => if pat = [] then some ([], []) else none
  | c :: rest =>
    if pat.isPrefixOf (c :: rest) then some ([], (c :: rest).drop pat.length)
    else
      match splitFirst pat rest with
      | some (a, b) => some (c :: a, b)
      | none => none

/-- Whether `pat` occurs as a contiguous substring of `s`. -/
def occurs (pat s : List Char) : Bool := (splitFirst pat s).isSome

/-- The literal `<function_calls>`. -/
def fcOpen : List Char := "<function_calls>".data

/-- The literal `</function_calls>`. -/
def fcClose : List Char := "</function_calls>".data

/-- All matches of `FUNCTION_CALLS_PATTERN` in document order, each
represented by its group (the text between the tags); scanning resumes
after the end of each match. -/
def fcScanAux : Nat → List Char → List (List Char)
  | 0, _ => []
  | fuel + 1, s =>
    match splitFirst fcOpen s with
    | none => []
    | some (_, rest) =>
      match splitFirst fcClose rest with
      | none => []
      | some (content, rest2) => content :: fcScanAux fuel rest2

/-- `Array.from(text.matchAll(FUNCTION_CALLS_PATTERN))`, keeping each
match's group 1. -/
def fcMatchAll (s : List Char) : List (List Char) := fcScanAux (s.length + 1) s

/-- `text.replace(FUNCTION_CALLS_PATTERN, '')`: remove every match, keep
everything else. -/
def fcRemoveAux : Nat → List Char → List Char
  | 0, s => s
  | fuel + 1, s =>
    match splitFirst fcOpen s with
    | none => s
    | some (a, rest) =>
      match splitFirst fcClose rest with
      | none => s
      | some (_, rest2) => a ++ fcRemoveAux fuel rest2

/-- Removal of all `FUNCTION_CALLS_PATTERN` matches with enough fuel. -/
def fcRemoveAll (s : List Char) : List Char := fcRemoveAux (s.length + 1) s

/-- One attempted match of `<TAG\s+name="([^"]+)">(.*?)</TAG>` anchored at
the start of `s` (`openLit` is `<TAG`, `closeLit` is `</TAG>`): returns
the `name` group, the content group, the whole match (`match[0]`) and the
text after the match. -/
def blockAt (openLit closeLit : List Char) (s : List Char) :
    Option (List Char × List Char × List Char × List Char) :=
  if openLit.isPrefixOf s then
    let s1 := s.drop openLit.length
    let ws := s1.takeWhile isJsSpace
    if ws = [] then none
    else
      let s2 := s1.drop ws.length
      if "name=\"".data.isPrefixOf s2 then
        let s3 := s2.drop 6
        let nm := s3.takeWhile (fun c => !(c == '"'))
        if nm = [] then none
        else
          let s4 := s3.drop nm.length
          if "\">".data.isPrefixOf s4 then
            match splitFirst closeLit (s4.drop 2) with
            | some (content, rest) =>
              some (nm, content,
                openLit ++ ws ++ "name=\"".data ++ nm ++ "\">".data ++ content ++ closeLit,
                rest)
            | none => none
          else none
      else none
  else none

/-- All matches of an invoke-shaped pattern in document order: try a match
at every position from left to right, emitting each match and resuming
after its end, as `matchAll` does (every match is nonempty, so `lastIndex`
always advances). -/
def scanBlocksAux (openLit closeLit : List Char) :
    Nat → List Char → List (List Char × List Char × List Char)
  | 0, _ => []
  | _ + 1, [] => []
  | fuel + 1, c :: rest =>
    match blockAt openLit closeLit (c :: rest) with
    | some (nm, content, raw, after) =>
      (nm, content, raw) :: scanBlocksAux openLit closeLit fuel after
    | none => scanBlocksAux openLit closeLit fuel rest

/-- The literal `<invoke`. -/
def invOpen : List Char := "<invoke".data

/-- The literal `</invoke>`. -/
def invClose : List Char := "</invoke>".data

/-- The literal `<parameter`. -/
def parOpen : List Char := "<parameter".data

/-- The literal `</parameter>`. -/
def parClose : List Char := "</parameter>".data

/-- `Array.from(content.matchAll(INVOKE_PATTERN))`: name group, content
group and whole match of every invoke block. -/
def invokeMatchAll (s : List Char) : List (List Char × List Char × List Char) :=
  scanBlocksAux invOpen invClose (s.length + 1) s

/-- `Array.from(content.matchAll(PARAMETER_PATTERN))`: name group, content
group and whole match of every parameter block. -/
def paramMatchAll (s : List Char) : List (List Char × List Char × List Char) :=
  scanBlocksAux parOpen parClose (s.length + 1) s

/-- A parsed tool call, interface `ParsedToolCall` of the source:
`toolName`, `functionName`, the coerced parameters object and the raw
matched text. -/
structure ParsedToolCall where
  toolName : List Char
  functionName : List Char
  parameters : List (List Char × JsonValue)
  rawXml : List Char

/-- The parser result, interface `ParseResult` of the source. -/
structure ParseResult where
  success : Bool
  toolCalls : List ParsedToolCall
  errors : List (List Char)
  remainingText : List Char

/-- `XMLToolParser.parseParameterValue`: try `JSON.parse`; otherwise
compare the lower-cased text with `true`/`false`; otherwise accept a
finite `Number(value)`; otherwise keep the text as a string. -/
def parseParameterValue (value : List Char) : JsonValue :=
  match jsonParse value with
  | some v => v
  | none =>
    if toLowerAscii value = "true".data then JsonValue.bool true
    else if toLowerAscii value = "false".data then JsonValue.bool false
    else
      match jsStringToNumber value with
      | JSNum.num q => JsonValue.num q
      | _ => JsonValue.str value

/-- `XMLToolParser.parseInvokeBlock`: scan the invoke content for parameter
blocks, trim each raw value and coerce it, collecting the results into a
parameters object (`parameters[paramName] = ...`); the tool name doubles
as the function name. -/
def parseInvokeBlock (toolName content rawXml : List Char) : ParsedToolCall :=
  { toolName := toolName
    functionName := toolName
    parameters :=
      (paramMatchAll content).foldl
        (fun acc m => insertReplace acc m.1 (parseParameterValue (jsTrim m.2.1))) []
    rawXml := rawXml }

/-- `XMLToolParser.parseToolCalls`.  The source wraps the body in
`try/catch` and wraps each `parseInvokeBlock` call in an inner `try/catch`
that would push onto `errors` and clear `success`; no operation in either
block can throw (`JSON.parse` is the only throwing call and it sits inside
its own `catch`), so both handlers are dead code and `success`/`errors`
keep their initial values.  (The inner handler also calls
`result.errors.push()` with no argument, which would push nothing even if
it were reached.)  With no `function_calls` match the initial result —
`remainingText` untrimmed — is returned; otherwise every invoke block of
every `function_calls` block is parsed in document order and
`remainingText` is the text with every match removed, then trimmed. -/
def parseToolCalls (text : List Char) : ParseResult :=
  let fcs := fcMatchAll text
  if fcs = [] then
    { success := true, toolCalls := [], errors := [], remainingText := text }
  else
    { success := true
      toolCalls :=
        (fcs.map (fun content =>
          (invokeMatchAll content).map (fun m => parseInvokeBlock m.1 m.2.1 m.2.2))).flatten
      errors := []
      remainingText := jsTrim (fcRemoveAll text) }

/-!
`XMLToolParser.validateToolCall` is typed against `ParsedToolCall`, but
since the interface's `parameters` field is `Record<string, any>` and the
method is callable with any runtime value of that shape, its behaviour is
a fact about JavaScript runtime values; it is therefore modelled over a
universal JS value type.
-/

/-- A JavaScript runtime value (functions, which occur nowhere in the
claims, are omitted). -/
inductive JSVal where
  | undef
  | null
  | bool (b : Bool)
  | num (n : JSNum)
  | str (s : List Char)
  | arr (elems : List JSVal)
  | obj (fields : List (List Char × JSVal))

/-- JS truthiness: `undefined`, `null`, `false`, `±0`, `NaN` and the empty
string are falsy, everything else (objects and arrays included) truthy. -/
def jsTruthy : JSVal → Bool
  | JSVal.undef => false
  | JSVal.null => false
  | JSVal.bool b => b
  | JSVal.num JSNum.nan => false
  | JSVal.num (JSNum.inf _) => true
  | JSVal.num (JSNum.num q) => decide (q ≠ 0)
  | JSVal.str s => decide (s ≠ [])
  | JSVal.arr _ => true
  | JSVal.obj _ => true

/-- The JS `typeof` operator; note `typeof null` is the string
`"object"`, and arrays are objects. -/
def jsTypeof : JSVal → List Char
  | JSVal.undef => "undefined".data
  | JSVal.null => "object".data
  | JSVal.bool _ => "boolean".data
  | JSVal.num _ => "number".data
  | JSVal.str _ => "string".data
  | JSVal.arr _ => "object".data
  | JSVal.obj _ => "object".data

/-- Whether a JS value is a mapping (a plain object of key/value
bindings), the notion the specification uses for the `parameters` field;
`null` and arrays are not mappings. -/
def isMapping : JSVal → Bool
  | JSVal.obj _ => true
  | _ => false

/-- A runtime value shaped like `ParsedToolCall`: the four fields, each an
arbitrary JS value. -/
structure ToolCallValue where
  toolName : JSVal
  functionName : JSVal
  parameters : JSVal
  rawXml : JSVal

/-- `XMLToolParser.validateToolCall`:
`!!(toolCall.toolName && toolCall.functionName && typeof toolCall.parameters === 'object' && toolCall.rawXml)`. -/
def validateToolCall (toolCall : ToolCallValue) : Bool :=
  jsTruthy toolCall.toolName && jsTruthy toolCall.functionName &&
    (jsTypeof toolCall.parameters = "object".data) && jsTruthy toolCall.rawXml

/-!
The tool registry, `class ToolRegistry` of
`packages/agentpress/src/tool-registry.ts`, together with the schema model
of `packages/agentpress/src/tool.ts` (`OpenAPISchema`, `XMLSchema`,
`SchemaType`).  A tool instance is identified by the order in which it was
constructed (`registerTool` runs `new toolClass(...)`, so each
registration call produces a fresh instance); the registry state carries
the next fresh identifier.  A tool class is represented by what
`registerTool` reads from it: its `name` and its static `getSchemas()`
table.
-/

/-- `SchemaType` of the source: `'openapi' | 'xml'`. -/
inductive SchemaType where
  | openapi
  | xml
deriving DecidableEq

/-- An XML-dialect parameter description (`XMLSchema.parameters` entry). -/
structure XMLParamSpec where
  type : String
  description : String
  required : Option Bool

/-- `XMLSchema` of the source: the inline tag name, description, parameter
descriptions and usage example (`example` is a Lean keyword, hence the
trailing underscore). -/
structure XMLSchema where
  name : String
  description : String
  parameters : List (String × XMLParamSpec)
  example_ : String

/-- The parameter block of `OpenAPISchema.function` (the constant
`type: 'object'` tag is omitted). -/
structure OpenAPIParameters where
  properties : List (String × JsonValue)
  required : Option (List String)

/-- `OpenAPISchema.function`. -/
structure OpenAPIFunction where
  name : String
  description : String
  parameters : OpenAPIParameters

/-- `OpenAPISchema` of the source (the constant `type: 'function'` tag is
omitted). -/
structure OpenAPISchema where
  function : OpenAPIFunction

/-- A schema payload: the source stores `OpenAPISchema | XMLSchema`
untagged and casts according to the `type` field; the embedding keeps the
payload as a sum. -/
inductive ToolSchema where
  | openapi (s : OpenAPISchema)
  | xml (s : XMLSchema)

/-- The inline tag of a schema payload when it is an `XMLSchema`; reading
`.name` through the `as XMLSchema` cast on an OpenAPI payload yields
`undefined`, which equals no tag, hence `none`. -/
def ToolSchema.xmlName : ToolSchema → Option String
  | ToolSchema.xml s => some s.name
  | ToolSchema.openapi _ => none

/-- One entry of a tool's schema table: the `{ type, schema }` record. -/
structure SchemaInfo where
  type : SchemaType
  schema : ToolSchema

/-- `ToolInfo` of the source: the constructed instance (by identifier),
the (possibly filtered) schema table, and the requested function names. -/
structure ToolInfo where
  instance_ : Nat
  schemas : List (String × SchemaInfo)
  functionNames : Option (List String)

/-- The `ToolRegistry` state: the `tools` and `xmlTools` records plus the
next fresh instance identifier. -/
structure ToolRegistry where
  tools : List (String × ToolInfo)
  xmlTools : List (String × ToolInfo)
  nextId : Nat

/-- The empty registry, as produced by the constructor. -/
def ToolRegistry.empty : ToolRegistry := { tools := [], xmlTools := [], nextId := 0 }

/-- The schema filtering step of `ToolRegistry.registerTool`: when
`functionNames` is given and nonempty, keep exactly the requested names
that the tool declares (`if (allSchemas[funcName]) filteredSchemas[funcName] = allSchemas[funcName]`);
otherwise keep everything. -/
def filterSchemas (allSchemas : List (String × SchemaInfo))
    (functionNames : Option (List String)) : List (String × SchemaInfo) :=
  match functionNames with
  | some names =>
    if names.length > 0 then
      names.foldl
        (fun acc funcName =>
          match List.lookup funcName allSchemas with
          | some s => insertReplace acc funcName s
          | none => acc) []
    else allSchemas
  | none => allSchemas

/-- The entries of a schema table whose type tag is `'xml'`
(`Object.entries(filteredSchemas).filter(([_, s]) => s.type === 'xml')`). -/
def xmlEntries (schemas : List (String × SchemaInfo)) : List (String × SchemaInfo) :=
  schemas.filter (fun p => p.2.type = SchemaType.xml)

/-- `ToolRegistry.registerTool`: construct a fresh instance, read the
class's schema table, filter it, store the `ToolInfo` under the class
name, and additionally index the tool in `xmlTools` when any retained
schema is XML-dialect.  (The catch clause only rethrows after logging, so
the successful path is the whole behaviour.) -/
def ToolRegistry.registerTool (r : ToolRegistry) (toolName : String)
    (allSchemas : List (String × SchemaInfo)) (functionNames : Option (List String)) :
    ToolRegistry :=
  let filteredSchemas := filterSchemas allSchemas functionNames
  let toolInfo : ToolInfo :=
    { instance_ := r.nextId, schemas := filteredSchemas, functionNames := functionNames }
  { tools := insertReplace r.tools toolName toolInfo
    xmlTools :=
      if (xmlEntries filteredSchemas).length > 0 then
        insertReplace r.xmlTools toolName toolInfo
      else r.xmlTools
    nextId := r.nextId + 1 }

/-- `ToolRegistry.getTool`: the stored instance, or `null`. -/
def ToolRegistry.getTool (r : ToolRegistry) (toolName : String) : Option Nat :=
  match List.lookup toolName r.tools with
  | some toolInfo => some toolInfo.instance_
  | none => none

/-- Whether one `ToolInfo` carries an XML schema with the given tag (the
inner loop of `getXMLTool`; the loop returns the same `toolInfo.instance`
for every matching entry, so only existence matters). -/
def declaresTag (toolInfo : ToolInfo) (xmlTagName : String) : Bool :=
  toolInfo.schemas.any
    (fun p => p.2.type = SchemaType.xml && p.2.schema.xmlName = some xmlTagName)

/-- The outer loop of `ToolRegistry.getXMLTool`: linear scan over the
`xmlTools` entries, returning the first instance that declares the tag. -/
def getXMLToolAux : List (String × ToolInfo) → String → Option Nat
  | [], _ => none
  | (_, toolInfo) :: rest, xmlTagName =>
    if declaresTag toolInfo xmlTagName then some toolInfo.instance_
    else getXMLToolAux rest xmlTagName

/-- `ToolRegistry.getXMLTool`: resolve an inline tag to a tool instance. -/
def ToolRegistry.getXMLTool (r : ToolRegistry) (xmlTagName : String) : Option Nat :=
  getXMLToolAux r.xmlTools xmlTagName

/-- `ToolRegistry.getToolSchemas`: the stored schema table, or `null`. -/
def ToolRegistry.getToolSchemas (r : ToolRegistry) (toolName : String) :
    Option (List (String × SchemaInfo)) :=
  match List.lookup toolName r.tools with
  | some toolInfo => some toolInfo.schemas
  | none => none

/-- `ToolRegistry.hasTool`: `toolName in this.tools`. -/
def ToolRegistry.hasTool (r : ToolRegistry) (toolName : String) : Bool :=
  (List.lookup toolName r.tools).isSome

/-- `ToolRegistry.getToolNames`: `Object.keys(this.tools)`. -/
def ToolRegistry.getToolNames (r : ToolRegistry) : List String :=
  r.tools.map Prod.fst

/-- `ToolRegistry.clear`: reset both records to empty objects. -/
def ToolRegistry.clear (r : ToolRegistry) : ToolRegistry :=
  { tools := [], xmlTools := [], nextId := r.nextId }

/-!
Canonical well-formed documents.  A well-formed invocation document is
prose, one `<function_calls>` container whose body is a sequence of invoke
blocks, and prose; each invoke block is `<invoke name="N">...</invoke>`
around a sequence of `<parameter name="P">V</parameter>` blocks.  The
render functions below produce exactly these documents, and the
well-formedness side conditions (nonempty quote-free names, no closing
literal inside a value) are the hypotheses of the parsing theorems.
-/

/-- A parameter specification of a well-formed invoke block: name and raw
value text. -/
structure ParamSpec where
  name : List Char
  value : List Char

/-- An invoke specification of a well-formed document: tool name and
parameter blocks. -/
structure InvokeSpec where
  name : List Char
  params : List ParamSpec

/-- Render `<TAG name="N">CONTENT</TAG>` for an invoke-shaped grammar with
opening literal `<TAG` and closing literal `</TAG>`. -/
def renderBlock (openLit closeLit name content : List Char) : List Char :=
  openLit ++ " name=\"".data ++ name ++ "\">".data ++ content ++ closeLit

/-- Render one parameter block. -/
def renderParam (p : ParamSpec) : List Char :=
  renderBlock parOpen parClose p.name p.value

/-- Render the body of an invoke block: its parameter blocks in order. -/
def renderParams (ps : List ParamSpec) : List Char :=
  (ps.map renderParam).flatten

/-- Render one invoke block. -/
def renderInvoke (inv : InvokeSpec) : List Char :=
  renderBlock invOpen invClose inv.name (renderParams inv.params)

/-- Render the body of the container: the invoke blocks in order. -/
def renderBody (invs : List InvokeSpec) : List Char :=
  (invs.map renderInvoke).flatten

/-- Render a whole well-formed document: prose, one container, prose. -/
def renderDoc (pre : List Char) (invs : List InvokeSpec) (post : List Char) : List Char :=
  pre ++ fcOpen ++ renderBody invs ++ fcClose ++ post

/-- The parameters object a well-formed invoke block parses to: each raw
value trimmed and coerced, collected by JS property assignment. -/
def expectedParams (ps : List ParamSpec) : List (List Char × JsonValue) :=
  ps.foldl (fun acc p => insertReplace acc p.name (parseParameterValue (jsTrim p.value))) []

/-- The `ParsedToolCall` a well-formed invoke block parses to. -/
def expectedCall (inv : InvokeSpec) : ParsedToolCall :=
  { toolName := inv.name
    functionName := inv.name
    parameters := expectedParams inv.params
    rawXml := renderInvoke inv }

/-- The well-formedness side conditions on one invoke-shaped block with
respect to its closing literal: the name is nonempty and quote-free, and the
content contains no occurrence of the closing literal. -/
abbrev goodBlock (closeLit name content : List Char) : Prop :=
  name ≠ [] ∧ (∀ c ∈ name, c ≠ '"') ∧ occurs closeLit content = false

/-- The well-formedness side conditions on an invoke specification. -/
abbrev goodInvoke (inv : InvokeSpec) : Prop :=
  goodBlock invClose inv.name (renderParams inv.params) ∧
    ∀ p ∈ inv.params, goodBlock parClose p.name p.value

/-!
Concrete data used by witnesses and counterexamples.
-/

/-- A tool class declaring an XML-dialect function `web_search` with
inline tag `web-search` and an OpenAPI-dialect function `summarize`. -/
def searchSchemas : List (String × SchemaInfo) :=
  [("web_search", ⟨SchemaType.xml,
      ToolSchema.xml ⟨"web-search", "search the web", [], "<web-search/>"⟩⟩),
   ("summarize", ⟨SchemaType.openapi,
      ToolSchema.openapi ⟨⟨"summarize", "summarize text", ⟨[], none⟩⟩⟩⟩)]

/-- A tool class declaring one XML-dialect function with inline tag
`alpha-tool`. -/
def alphaSchemas : List (String × SchemaInfo) :=
  [("alpha", ⟨SchemaType.xml,
      ToolSchema.xml ⟨"alpha-tool", "alpha", [], "<alpha-tool/>"⟩⟩)]

/-- The registry after registering `SearchTool` and then re-registering it
filtered to the OpenAPI-only function `summarize`: the second registration
retains no XML schema, so `xmlTools` keeps the first registration. -/
def regTwice : ToolRegistry :=
  (ToolRegistry.empty.registerTool "SearchTool" searchSchemas none).registerTool
    "SearchTool" searchSchemas (some ["summarize"])

/-- A registry with two tools, of which exactly one declares the inline
tag `web-search`. -/
def regAB : ToolRegistry :=
  (ToolRegistry.empty.registerTool "AlphaTool" alphaSchemas none).registerTool
    "SearchTool" searchSchemas none

/-- A document whose container holds one well-formed invoke block followed
by a malformed one (an unmatched `<invoke>` tag). -/
def c2doc : List Char :=
  ("<function_calls><invoke name=\"ok\"><parameter name=\"x\">1</parameter>"
    ++ "</invoke><invoke name=\"bad\"></function_calls>").data

/-- Two well-formed invoke specifications used to instantiate the
well-formed-document theorem. -/
def w5invs : List InvokeSpec :=
  [⟨"web-search".data, [⟨"query".data, "cats".data⟩]⟩,
   ⟨"shell".data, [⟨"cmd".data, "ls".data⟩, ⟨"timeout_s".data, "5".data⟩]⟩]

/-!
Lemmas about the leftmost-occurrence scanner `splitFirst`.  All the tag
literals of the parser start with `<` and contain no further `<`, which
rules out occurrences straddling a boundary: an occurrence of such a
literal inside `a ++ lit ++ b` that starts inside `a` either lies wholly
inside `a` or would put the literal's leading `<` at a positive offset of
the literal itself.
-/

theorem isPrefixOf_true_iff {l₁ l₂ : List Char} : l₁.isPrefixOf l₂ = true ↔ l₁ <+: l₂ :=
  List.isPrefixOf_iff_prefix

theorem occurs_of_isPrefixOf {pat s : List Char} (h : pat.isPrefixOf s = true) :
    occurs pat s = true := by
  cases s with
  | nil =>
    have hp : pat = [] := by
      cases pat with
      | nil => rfl
      | cons c t => simp [List.isPrefixOf] at h
    simp [occurs, splitFirst, hp]
  | cons c rest => simp [occurs, splitFirst, h]

theorem occurs_false_cons {pat : List Char} {c : Char} {rest : List Char}
    (h : occurs pat (c :: rest) = false) : occurs pat rest = false := by
  simp only [occurs, splitFirst] at h ⊢
  by_cases hp : pat.isPrefixOf (c :: rest) = true
  · simp [hp] at h
  · simp [hp] at h
    cases hs : splitFirst pat rest with
    | none => simp
    | some ab => rw [hs] at h; simp at h

theorem splitFirst_eq_none {pat s : List Char} (h : occurs pat s = false) :
    splitFirst pat s = none := by
  simp only [occurs] at h
  cases hs : splitFirst pat s with
  | none => rfl
  | some ab => rw [hs] at h; simp at h

/-- A literal that starts with `<` and has no other `<` cannot straddle the
boundary of `a ++ pat ++ b`: if it is a prefix of the whole and `a` is
nonempty, it already occurs inside `a`. -/
theorem isPrefixOf_append_cases {tl b : List Char} {c : Char} {a' : List Char}
    (htl : '<' ∉ tl)
    (h : (('<' :: tl) : List Char) <+: ((c :: a') ++ ('<' :: tl) ++ b)) :
    occurs ('<' :: tl) (c :: a') = true := by
  by_cases hlen : (('<' :: tl) : List Char).length ≤ (c :: a').length
  · have h1 : (('<' :: tl) : List Char) <+: (c :: a') ++ (('<' :: tl) ++ b) := by
      simpa [List.append_assoc] using h
    have h2 := List.prefix_iff_eq_take.mp h1
    have h3 : ((c :: a') ++ (('<' :: tl) ++ b)).take ('<' :: tl).length
        = (c :: a').take ('<' :: tl).length :=
      List.take_append_of_le_length hlen
    have h4 : (('<' :: tl) : List Char) <+: (c :: a') := by
      rw [h2, h3]; exact List.take_prefix _ _
    exact occurs_of_isPrefixOf (isPrefixOf_true_iff.mpr h4)
  · exfalso
    push_neg at hlen
    obtain ⟨t, ht⟩ := h
    have hidx : a'.length + 1 < (('<' :: tl) : List Char).length := by
      simpa using hlen
    have hidx' : a'.length < tl.length := by simpa using hidx
    have hlt : a'.length + 1 < (('<' :: tl) ++ t).length := by
      simp only [List.length_append]; omega
    have hlt2 : a'.length + 1 < ((c :: a') ++ (('<' :: tl) ++ b)).length := by
      simp only [List.length_append, List.length_cons]; omega
    have hL : (('<' :: tl) ++ t)[a'.length + 1] = (('<' :: tl) : List Char)[a'.length + 1] :=
      List.getElem_append_left hidx
    have hR : ((c :: a') ++ (('<' :: tl) ++ b))[a'.length + 1] = '<' := by
      rw [List.getElem_append_right (by simp)]
      simp
    have hmid : (('<' :: tl) ++ t)[a'.length + 1] = '<' := by
      have ht2 : ('<' :: tl) ++ t = (c :: a') ++ (('<' :: tl) ++ b) := by
        rw [← List.append_assoc]; exact ht
      rw [← hR]
      exact List.getElem_of_eq ht2 hlt
    have hEq : tl[a'.length] = '<' := by
      have hstep : (('<' :: tl) : List Char)[a'.length + 1] = tl[a'.length] := by
        simp
      rw [← hstep, ← hL]; exact hmid
    exact htl (hEq ▸ List.getElem_mem hidx')

/-- Leftmost-occurrence splitting of a text of the form `a ++ pat ++ b`
for a `<`-leading literal: when `pat` does not occur in `a`, the first
occurrence is exactly the explicit one. -/
theorem splitFirst_append {tl a b : List Char} (htl : '<' ∉ tl)
    (ha : occurs ('<' :: tl) a = false) :
    splitFirst ('<' :: tl) (a ++ ('<' :: tl) ++ b) = some (a, b) := by
  induction a with
  | nil =>
    show splitFirst ('<' :: tl) ('<' :: (tl ++ b)) = some ([], b)
    have hpre : (('<' :: tl) : List Char).isPrefixOf ('<' :: (tl ++ b)) = true := by
      exact isPrefixOf_true_iff.mpr ⟨b, by simp⟩
    simp only [splitFirst, hpre, if_true]
    have : ('<' :: (tl ++ b)).drop ('<' :: tl).length = b := by
      have : ('<' :: (tl ++ b)) = ('<' :: tl) ++ b := by simp
      rw [this, List.drop_left]
    rw [this]
  | cons c a' ih =>
    have hnp : (('<' :: tl) : List Char).isPrefixOf ((c :: a') ++ ('<' :: tl) ++ b) = false := by
      by_contra hcon
      have hT : (('<' :: tl) : List Char).isPrefixOf ((c :: a') ++ ('<' :: tl) ++ b) = true := by
        cases hx : (('<' :: tl) : List Char).isPrefixOf ((c :: a') ++ ('<' :: tl) ++ b) with
        | true => rfl
        | false => exact absurd hx hcon
      have := isPrefixOf_append_cases htl (isPrefixOf_true_iff.mp hT)
      rw [this] at ha; exact Bool.noConfusion ha
    have ha' : occurs ('<' :: tl) a' = false := occurs_false_cons ha
    show splitFirst ('<' :: tl) (c :: (a' ++ ('<' :: tl) ++ b)) = some (c :: a', b)
    simp only [splitFirst]
    have hnp' : (('<' :: tl) : List Char).isPrefixOf (c :: (a' ++ ('<' :: tl) ++ b)) = false := by
      simpa using hnp
    rw [hnp']
    simp only [Bool.false_eq_true, if_false]
    rw [ih ha']

theorem fcOpen_eq : fcOpen = '<' :: "function_calls>".data := by decide

theorem fcClose_eq : fcClose = '<' :: "/function_calls>".data := by decide

/-- Scanning a text with exactly one container: prose without the opening
literal, the container, prose without the opening literal; the body must
not contain the closing literal.  The single match's group is the body. -/
theorem fcScanAux_one {pre body post : List Char} {f : Nat} (hf : 2 ≤ f)
    (hpre : occurs fcOpen pre = false)
    (hbody : occurs fcClose body = false)
    (hpost : occurs fcOpen post = false) :
    fcScanAux f (pre ++ fcOpen ++ body ++ fcClose ++ post) = [body] := by
  obtain ⟨k, rfl⟩ : ∃ k, f = k + 2 := ⟨f - 2, by omega⟩
  have h1 : splitFirst fcOpen (pre ++ fcOpen ++ (body ++ fcClose ++ post))
      = some (pre, body ++ fcClose ++ post) := by
    rw [fcOpen_eq] at hpre ⊢
    exact splitFirst_append (by decide) hpre
  have h2 : splitFirst fcClose (body ++ fcClose ++ post) = some (body, post) := by
    rw [fcClose_eq] at hbody ⊢
    exact splitFirst_append (by decide) hbody
  have hassoc : pre ++ fcOpen ++ body ++ fcClose ++ post
      = pre ++ fcOpen ++ (body ++ fcClose ++ post) := by
    simp [List.append_assoc]
  rw [hassoc]
  show fcScanAux (k + 1 + 1) _ = [body]
  simp only [fcScanAux, h1, h2]
  show body :: fcScanAux (k + 1) post = [body]
  simp only [fcScanAux, splitFirst_eq_none hpost]

/-- Removing the matches of the same one-container text keeps exactly the
surrounding prose. -/
theorem fcRemoveAux_one {pre body post : List Char} {f : Nat} (hf : 2 ≤ f)
    (hpre : occurs fcOpen pre = false)
    (hbody : occurs fcClose body = false)
    (hpost : occurs fcOpen post = false) :
    fcRemoveAux f (pre ++ fcOpen ++ body ++ fcClose ++ post) = pre ++ post := by
  obtain ⟨k, rfl⟩ : ∃ k, f = k + 2 := ⟨f - 2, by omega⟩
  have h1 : splitFirst fcOpen (pre ++ fcOpen ++ (body ++ fcClose ++ post))
      = some (pre, body ++ fcClose ++ post) := by
    rw [fcOpen_eq] at hpre ⊢
    exact splitFirst_append (by decide) hpre
  have h2 : splitFirst fcClose (body ++ fcClose ++ post) = some (body, post) := by
    rw [fcClose_eq] at hbody ⊢
    exact splitFirst_append (by decide) hbody
  have hassoc : pre ++ fcOpen ++ body ++ fcClose ++ post
      = pre ++ fcOpen ++ (body ++ fcClose ++ post) := by
    simp [List.append_assoc]
  rw [hassoc]
  show fcRemoveAux (k + 1 + 1) _ = pre ++ post
  simp only [fcRemoveAux, h1, h2]
  show pre ++ fcRemoveAux (k + 1) post = pre ++ post
  simp only [fcRemoveAux, splitFirst_eq_none hpost]

theorem takeWhile_append_cons {p : Char → Bool} {u : List Char} {v : Char} {w : List Char}
    (hu : ∀ c ∈ u, p c = true) (hv : p v = false) :
    (u ++ v :: w).takeWhile p = u := by
  induction u with
  | nil => simp [List.takeWhile_cons, hv]
  | cons c u' ih =>
    have hc : p c = true := hu c (by simp)
    simp only [List.cons_append, List.takeWhile_cons, hc, if_true]
    rw [ih (fun d hd => hu d (by simp [hd]))]

/-- A successful anchored match of the invoke-shaped pattern on a rendered
block: the groups are the rendered name and content, `match[0]` is the
whole rendered block, and scanning resumes right after it. -/
theorem blockAt_render {openLit ctl name content rest : List Char}
    (hname : name ≠ []) (hq : ∀ c ∈ name, c ≠ '"')
    (hctl : '<' ∉ ctl)
    (hocc : occurs ('<' :: ctl) content = false) :
    blockAt openLit ('<' :: ctl) (renderBlock openLit ('<' :: ctl) name content ++ rest)
      = some (name, content, renderBlock openLit ('<' :: ctl) name content, rest) := by
  have hA : " name=\"".data = ' ' :: "name=\"".data := rfl
  have hB : "\">".data = '"' :: '>' :: [] := rfl
  have hL : renderBlock openLit ('<' :: ctl) name content ++ rest
      = openLit ++ (' ' :: ("name=\"".data ++ (name ++ ('"' :: '>' ::
          (content ++ ('<' :: ctl) ++ rest))))) := by
    simp [renderBlock, hA, hB, List.append_assoc]
  rw [hL]
  have h1 : openLit.isPrefixOf (openLit ++ (' ' :: ("name=\"".data ++ (name ++ ('"' :: '>' ::
      (content ++ ('<' :: ctl) ++ rest)))))) = true :=
    isPrefixOf_true_iff.mpr (List.prefix_append _ _)
  have h2 : (openLit ++ (' ' :: ("name=\"".data ++ (name ++ ('"' :: '>' ::
      (content ++ ('<' :: ctl) ++ rest)))))).drop openLit.length
      = ' ' :: ("name=\"".data ++ (name ++ ('"' :: '>' ::
          (content ++ ('<' :: ctl) ++ rest)))) := List.drop_left _ _
  have hsp : isJsSpace ' ' = true := by decide
  have hnsp : isJsSpace 'n' = false := by decide
  have h3 : (' ' :: ("name=\"".data ++ (name ++ ('"' :: '>' ::
      (content ++ ('<' :: ctl) ++ rest))))).takeWhile isJsSpace = [' '] := by
    rw [show ("name=\"".data ++ (name ++ ('"' :: '>' :: (content ++ ('<' :: ctl) ++ rest))))
        = 'n' :: ("ame=\"".data ++ (name ++ ('"' :: '>' :: (content ++ ('<' :: ctl) ++ rest))))
      from rfl]
    simp [List.takeWhile_cons, hsp, hnsp]
  have h6 : (name ++ ('"' :: '>' :: (content ++ ('<' :: ctl) ++ rest))).takeWhile
      (fun c => !(c == '"')) = name :=
    takeWhile_append_cons
      (fun c hc => by
        have := hq c hc
        simp [this])
      (by decide)
  have hd1 : ∀ Z : List Char, List.drop [' '].length (' ' :: Z) = Z := fun _ => rfl
  have hp6 : ∀ Z : List Char, (['n','a','m','e','=','"'] : List Char).isPrefixOf
      (['n','a','m','e','=','"'] ++ Z) = true :=
    fun Z => isPrefixOf_true_iff.mpr (List.prefix_append _ _)
  have hd6 : ∀ Z : List Char, (['n','a','m','e','=','"'] ++ Z).drop 6 = Z :=
    fun Z => List.drop_left' rfl
  have hd7 : ∀ W : List Char, List.drop name.length (name ++ W) = W := fun W => List.drop_left _ _
  have hp2 : ∀ W : List Char, (['"','>'] : List Char).isPrefixOf ('"' :: '>' :: W) = true :=
    fun W => isPrefixOf_true_iff.mpr ⟨W, rfl⟩
  have hd2 : ∀ W : List Char, List.drop 2 ('"' :: '>' :: W) = W := fun _ => rfl
  have h10 : splitFirst ('<' :: ctl) (content ++ '<' :: (ctl ++ rest)) = some (content, rest) := by
    have h := @splitFirst_append ctl content rest hctl hocc
    simpa [List.append_assoc] using h
  simp only [blockAt, h1, h2, h3, h6, hd1, hp6, hd6, if_true, if_neg hname, hd7, hp2, hd2, h10]
  simp [renderBlock, List.append_assoc]
  rw [h10]

theorem scanBlocksAux_nil (openLit closeLit : List Char) (f : Nat) :
    scanBlocksAux openLit closeLit f [] = [] := by
  cases f <;> rfl

theorem renderBlock_length_pos {ot cl n c : List Char} :
    1 ≤ (renderBlock ('<' :: ot) cl n c).length := by
  simp [renderBlock]

/-- Scanning a concatenation of well-formed rendered blocks finds exactly
those blocks, in order: each block matches at its own start and the scan
resumes right after it. -/
theorem scanBlocksAux_renders {ot ctl : List Char} (hctl : '<' ∉ ctl)
    (blocks : List (List Char × List Char))
    (hgood : ∀ b ∈ blocks,
      b.1 ≠ [] ∧ (∀ c ∈ b.1, c ≠ '"') ∧ occurs ('<' :: ctl) b.2 = false) :
    ∀ f, ((blocks.map (fun b => renderBlock ('<' :: ot) ('<' :: ctl) b.1 b.2)).flatten).length + 1 ≤ f →
      scanBlocksAux ('<' :: ot) ('<' :: ctl) f
          ((blocks.map (fun b => renderBlock ('<' :: ot) ('<' :: ctl) b.1 b.2)).flatten)
        = blocks.map (fun b => (b.1, b.2, renderBlock ('<' :: ot) ('<' :: ctl) b.1 b.2)) := by
  induction blocks with
  | nil =>
    intro f _
    simpa using scanBlocksAux_nil ('<' :: ot) ('<' :: ctl) f
  | cons b bs ih =>
    intro f hf
    obtain ⟨hn, hq, hocc⟩ := hgood b (by simp)
    have hR := fun b hb => hgood b (List.mem_cons_of_mem _ hb)
    simp only [List.map_cons, List.flatten_cons] at hf ⊢
    set R := ((bs.map (fun b => renderBlock ('<' :: ot) ('<' :: ctl) b.1 b.2)).flatten) with hRdef
    have hlen : (renderBlock ('<' :: ot) ('<' :: ctl) b.1 b.2).length + R.length + 1 ≤ f := by
      have := hf
      simp only [List.length_append] at this
      omega
    obtain ⟨f', rfl⟩ : ∃ f', f = f' + 1 :=
      ⟨f - 1, by omega⟩
    have hb := @blockAt_render ('<' :: ot) ctl b.1 b.2 R hn hq hctl hocc
    have hform : renderBlock ('<' :: ot) ('<' :: ctl) b.1 b.2 ++ R
        = '<' :: (ot ++ (' ' :: ("name=\"".data ++ (b.1 ++ ('"' :: '>' ::
            (b.2 ++ ('<' :: (ctl ++ R)))))))) := by
      have hA : " name=\"".data = ' ' :: "name=\"".data := rfl
      simp [renderBlock, hA, List.append_assoc]
    rw [hform]
    have hb' : blockAt ('<' :: ot) ('<' :: ctl)
        ('<' :: (ot ++ (' ' :: ("name=\"".data ++ (b.1 ++ ('"' :: '>' ::
            (b.2 ++ ('<' :: (ctl ++ R)))))))))
        = some (b.1, b.2, renderBlock ('<' :: ot) ('<' :: ctl) b.1 b.2, R) := hform ▸ hb
    show scanBlocksAux ('<' :: ot) ('<' :: ctl) (f' + 1) _ = _
    rw [scanBlocksAux, hb']
    have hf' : R.length + 1 ≤ f' := by
      have h1 : 1 ≤ (renderBlock ('<' :: ot) ('<' :: ctl) b.1 b.2).length :=
        renderBlock_length_pos
      omega
    show (b.1, b.2, renderBlock ('<' :: ot) ('<' :: ctl) b.1 b.2)
        :: scanBlocksAux ('<' :: ot) ('<' :: ctl) f' R = _
    rw [ih hR f' hf']

theorem invOpen_eq : invOpen = '<' :: "invoke".data := by decide

theorem invClose_eq : invClose = '<' :: "/invoke>".data := by decide

theorem parOpen_eq : parOpen = '<' :: "parameter".data := by decide

theorem parClose_eq : parClose = '<' :: "/parameter>".data := by decide

/-- The invoke-pattern scan of a well-formed container body finds exactly
the rendered invoke blocks, in order. -/
theorem invokeMatchAll_renders (invs : List InvokeSpec)
    (hgood : ∀ inv ∈ invs, goodInvoke inv) :
    invokeMatchAll (renderBody invs)
      = invs.map (fun inv => (inv.name, renderParams inv.params, renderInvoke inv)) := by
  have hmap : renderBody invs
      = ((invs.map (fun inv => (inv.name, renderParams inv.params))).map
          (fun b => renderBlock ('<' :: "invoke".data) ('<' :: "/invoke>".data) b.1 b.2)).flatten := by
    simp only [renderBody, renderInvoke, List.map_map]
    rw [← invOpen_eq, ← invClose_eq]
    rfl
  have hg : ∀ b ∈ invs.map (fun inv => (inv.name, renderParams inv.params)),
      b.1 ≠ [] ∧ (∀ c ∈ b.1, c ≠ '"') ∧ occurs ('<' :: "/invoke>".data) b.2 = false := by
    intro b hb
    obtain ⟨inv, hinv, rfl⟩ := List.mem_map.mp hb
    obtain ⟨⟨hn, hq, hocc⟩, _⟩ := hgood inv hinv
    refine ⟨hn, hq, ?_⟩
    rw [← invClose_eq]
    exact hocc
  have hscan := @scanBlocksAux_renders "invoke".data "/invoke>".data (by decide)
    (invs.map (fun inv => (inv.name, renderParams inv.params))) hg
    ((renderBody invs).length + 1) (by rw [hmap])
  show scanBlocksAux invOpen invClose ((renderBody invs).length + 1) (renderBody invs) = _
  rw [invOpen_eq, invClose_eq, hmap]
  rw [hmap] at hscan
  rw [hscan]
  simp only [List.map_map]
  apply List.map_congr_left
  intro inv _
  simp only [Function.comp]
  rw [renderInvoke, invOpen_eq, invClose_eq]

/-- The parameter-pattern scan of a well-formed invoke content finds
exactly the rendered parameter blocks, in order. -/
theorem paramMatchAll_renders (ps : List ParamSpec)
    (hgood : ∀ p ∈ ps, goodBlock parClose p.name p.value) :
    paramMatchAll (renderParams ps) = ps.map (fun p => (p.name, p.value, renderParam p)) := by
  have hmap : renderParams ps
      = ((ps.map (fun p => (p.name, p.value))).map
          (fun b => renderBlock ('<' :: "parameter".data) ('<' :: "/parameter>".data) b.1 b.2)).flatten := by
    simp only [renderParams, renderParam, List.map_map]
    rw [← parOpen_eq, ← parClose_eq]
    rfl
  have hg : ∀ b ∈ ps.map (fun p => (p.name, p.value)),
      b.1 ≠ [] ∧ (∀ c ∈ b.1, c ≠ '"') ∧ occurs ('<' :: "/parameter>".data) b.2 = false := by
    intro b hb
    obtain ⟨p, hp, rfl⟩ := List.mem_map.mp hb
    obtain ⟨hn, hq, hocc⟩ := hgood p hp
    refine ⟨hn, hq, ?_⟩
    rw [← parClose_eq]
    exact hocc
  have hscan := @scanBlocksAux_renders "parameter".data "/parameter>".data (by decide)
    (ps.map (fun p => (p.name, p.value))) hg
    ((renderParams ps).length + 1) (by rw [hmap])
  show scanBlocksAux parOpen parClose ((renderParams ps).length + 1) (renderParams ps) = _
  rw [parOpen_eq, parClose_eq, hmap]
  rw [hmap] at hscan
  rw [hscan]
  simp only [List.map_map]
  apply List.map_congr_left
  intro p _
  simp only [Function.comp]
  rw [renderParam, parOpen_eq, parClose_eq]

/-- Parsing a well-formed rendered invoke block produces exactly the
expected `ParsedToolCall`. -/
theorem parseInvokeBlock_render (inv : InvokeSpec) (hgood : goodInvoke inv) :
    parseInvokeBlock inv.name (renderParams inv.params) (renderInvoke inv)
      = expectedCall inv := by
  rw [parseInvokeBlock, expectedCall]
  rw [paramMatchAll_renders inv.params hgood.2]
  rw [List.foldl_map]
  rfl

/-- C5: for every well-formed input text — prose, one outer container
whose body is `N` well-formed invoke blocks, prose — `parseToolCalls`
returns exactly the `N` expected invocations in document order, with
`success = true` and `errors = []`, and the leftover text is the original
text with the container occurrence removed and the result trimmed (here:
the surrounding prose, joined and trimmed). -/
theorem parseToolCalls_renderDoc (pre post : List Char) (invs : List InvokeSpec)
    (hpre : occurs fcOpen pre = false)
    (hpost : occurs fcOpen post = false)
    (hbody : occurs fcClose (renderBody invs) = false)
    (hgood : ∀ inv ∈ invs, goodInvoke inv) :
    parseToolCalls (renderDoc pre invs post)
      = { success := true
          toolCalls := invs.map expectedCall
          errors := []
          remainingText := jsTrim (pre ++ post) } := by
  have hflen : 2 ≤ (renderDoc pre invs post).length + 1 := by
    simp only [renderDoc, List.length_append]
    have : fcOpen.length = 16 := by decide
    omega
  have hscan : fcMatchAll (renderDoc pre invs post) = [renderBody invs] := by
    rw [fcMatchAll, renderDoc]
    exact fcScanAux_one hflen hpre hbody hpost
  have hremove : fcRemoveAll (renderDoc pre invs post) = pre ++ post := by
    rw [fcRemoveAll, renderDoc]
    exact fcRemoveAux_one hflen hpre hbody hpost
  rw [parseToolCalls, hscan]
  rw [if_neg (by simp)]
  rw [hremove]
  have hcalls : ([renderBody invs].map (fun content =>
      (invokeMatchAll content).map (fun m => parseInvokeBlock m.1 m.2.1 m.2.2))).flatten
      = invs.map expectedCall := by
    simp only [List.map_cons, List.map_nil, List.flatten_cons, List.flatten_nil,
      List.append_nil]
    rw [invokeMatchAll_renders invs hgood]
    rw [List.map_map]
    apply List.map_congr_left
    intro inv hinv
    show parseInvokeBlock inv.name (renderParams inv.params) (renderInvoke inv)
        = expectedCall inv
    exact parseInvokeBlock_render inv (hgood inv hinv)
  rw [hcalls]

/-!
Lemmas about the registry's association-list operations.
-/

theorem lookup_insertReplace_self {α β : Type} [DecidableEq α] [BEq α] [LawfulBEq α]
    (m : List (α × β)) (k : α) (v : β) :
    List.lookup k (insertReplace m k v) = some v := by
  induction m with
  | nil => simp [insertReplace, List.lookup_cons]
  | cons p rest ih =>
    obtain ⟨k', v'⟩ := p
    by_cases h : k' = k
    · subst h
      simp [insertReplace, List.lookup_cons]
    · have hb : (k == k') = false := beq_eq_false_iff_ne.mpr (fun he => h he.symm)
      simp only [insertReplace, if_neg h, List.lookup_cons, hb]
      exact ih

theorem lookup_insertReplace_ne {α β : Type} [DecidableEq α] [BEq α] [LawfulBEq α]
    (m : List (α × β)) (k k' : α) (v : β) (h : k' ≠ k) :
    List.lookup k' (insertReplace m k v) = List.lookup k' m := by
  have hb : (k' == k) = false := beq_eq_false_iff_ne.mpr h
  induction m with
  | nil => simp [insertReplace, List.lookup_cons, hb, List.lookup]
  | cons p rest ih =>
    obtain ⟨k0, v0⟩ := p
    by_cases h0 : k0 = k
    · subst h0
      simp [insertReplace, List.lookup_cons, hb]
    · simp only [insertReplace, if_neg h0, List.lookup_cons]
      cases hk : k' == k0 with
      | true => simp
      | false => simpa using ih

/-- Lookup through the filtering fold of `registerTool`: a key resolves to
the declared schema exactly when it is both requested and declared. -/
theorem lookup_filterFold (allSchemas : List (String × SchemaInfo))
    (names : List String) (k : String) :
    ∀ acc : List (String × SchemaInfo),
      List.lookup k (names.foldl
        (fun acc funcName =>
          match List.lookup funcName allSchemas with
          | some s => insertReplace acc funcName s
          | none => acc) acc)
      = if k ∈ names ∧ (List.lookup k allSchemas).isSome
        then List.lookup k allSchemas else List.lookup k acc := by
  induction names with
  | nil => intro acc; simp
  | cons n rest ih =>
    intro acc
    rw [List.foldl_cons, ih]
    by_cases hmem : k ∈ rest ∧ (List.lookup k allSchemas).isSome
    · rw [if_pos hmem, if_pos ⟨List.mem_cons_of_mem _ hmem.1, hmem.2⟩]
    · rw [if_neg hmem]
      by_cases hk : k = n
      · subst hk
        cases hs : List.lookup k allSchemas with
        | some s =>
          show List.lookup k (insertReplace acc k s) = _
          rw [lookup_insertReplace_self, if_pos ⟨by simp, by simp⟩]
        | none =>
          show List.lookup k acc = _
          rw [if_neg (by simp [hs])]
      · cases hs : List.lookup n allSchemas with
        | some s =>
          show List.lookup k (insertReplace acc n s) = _
          rw [lookup_insertReplace_ne _ _ _ _ hk]
          rw [if_neg (by
            rintro ⟨hmem2, hsome⟩
            rcases List.mem_cons.mp hmem2 with h | h
            · exact hk h
            · exact hmem ⟨h, hsome⟩)]
        | none =>
          show List.lookup k acc = _
          rw [if_neg (by
            rintro ⟨hmem2, hsome⟩
            rcases List.mem_cons.mp hmem2 with h | h
            · exact hk h
            · exact hmem ⟨h, hsome⟩)]

theorem getXMLToolAux_none (l : List (String × ToolInfo)) (tag : String)
    (h : ∀ p ∈ l, declaresTag p.2 tag = false) :
    getXMLToolAux l tag = none := by
  induction l with
  | nil => rfl
  | cons p rest ih =>
    obtain ⟨n, info⟩ := p
    simp only [getXMLToolAux]
    rw [if_neg (by simp [h (n, info) (by simp)])]
    exact ih (fun q hq => h q (List.mem_cons_of_mem _ hq))

theorem getXMLToolAux_first (pre : List (String × ToolInfo)) (n : String)
    (info : ToolInfo) (post : List (String × ToolInfo)) (tag : String)
    (hpre : ∀ p ∈ pre, declaresTag p.2 tag = false)
    (hd : declaresTag info tag = true) :
    getXMLToolAux (pre ++ (n, info) :: post) tag = some info.instance_ := by
  induction pre with
  | nil => simp [getXMLToolAux, hd]
  | cons p rest ih =>
    obtain ⟨n0, info0⟩ := p
    simp only [List.cons_append, getXMLToolAux]
    rw [if_neg (by simp [hpre (n0, info0) (by simp)])]
    exact ih (fun q hq => hpre q (List.mem_cons_of_mem _ hq))

theorem getTool_registerTool (r : ToolRegistry) (toolName : String)
    (allSchemas : List (String × SchemaInfo)) (functionNames : Option (List String)) :
    (r.registerTool toolName allSchemas functionNames).getTool toolName = some r.nextId := by
  show (match List.lookup toolName (insertReplace r.tools toolName
      ⟨r.nextId, filterSchemas allSchemas functionNames, functionNames⟩) with
    | some toolInfo => some toolInfo.instance_
    | none => none) = some r.nextId
  rw [lookup_insertReplace_self]

theorem hasTool_registerTool (r : ToolRegistry) (toolName : String)
    (allSchemas : List (String × SchemaInfo)) (functionNames : Option (List String)) :
    (r.registerTool toolName allSchemas functionNames).hasTool toolName = true := by
  show (List.lookup toolName (insertReplace r.tools toolName
      ⟨r.nextId, filterSchemas allSchemas functionNames, functionNames⟩)).isSome = true
  rw [lookup_insertReplace_self]
  rfl

theorem getToolSchemas_registerTool (r : ToolRegistry) (toolName : String)
    (allSchemas : List (String × SchemaInfo)) (functionNames : Option (List String)) :
    (r.registerTool toolName allSchemas functionNames).getToolSchemas toolName
      = some (filterSchemas allSchemas functionNames) := by
  show (match List.lookup toolName (insertReplace r.tools toolName
      ⟨r.nextId, filterSchemas allSchemas functionNames, functionNames⟩) with
    | some toolInfo => some toolInfo.schemas
    | none => none) = some (filterSchemas allSchemas functionNames)
  rw [lookup_insertReplace_self]

/-!
The claims.
-/

/-- C1, counterexample: the claim maps the empty raw value to the empty
string, but the code maps it to the number `0` (JavaScript's
`Number('') === 0` makes step (3) accept the empty string). -/
theorem c1_counterexample :
    parseParameterValue "".data = JsonValue.num 0
    ∧ parseParameterValue "".data ≠ JsonValue.str "".data :=
  ⟨rfl, fun h => JsonValue.noConfusion
    (show JsonValue.num 0 = JsonValue.str "".data from h)⟩

/-- C1, amended: each raw parameter value inside an invoke block is
trimmed and coerced in the fixed order (1) `JSON.parse`, (2)
case-insensitive `true`/`false`, (3) finite result of JavaScript's
`Number()` conversion, (4) the text itself as a string; the enumerated
examples hold except that the empty string coerces to the number `0`
(since `Number('')` is `0`), not to the empty string.  (`mkRat 157 50`
is the exact value of the literal `3.14`.) -/
theorem c1_amended_coercion :
    (∀ v jv, jsonParse v = some jv → parseParameterValue v = jv)
    ∧ (∀ v, jsonParse v = none → toLowerAscii v = "true".data →
        parseParameterValue v = JsonValue.bool true)
    ∧ (∀ v, jsonParse v = none → toLowerAscii v ≠ "true".data →
        toLowerAscii v = "false".data → parseParameterValue v = JsonValue.bool false)
    ∧ (∀ v q, jsonParse v = none → toLowerAscii v ≠ "true".data →
        toLowerAscii v ≠ "false".data → jsStringToNumber v = JSNum.num q →
        parseParameterValue v = JsonValue.num q)
    ∧ (∀ v, jsonParse v = none → toLowerAscii v ≠ "true".data →
        toLowerAscii v ≠ "false".data → (∀ q, jsStringToNumber v ≠ JSNum.num q) →
        parseParameterValue v = JsonValue.str v)
    ∧ parseParameterValue "true".data = JsonValue.bool true
    ∧ parseParameterValue "FALSE".data = JsonValue.bool false
    ∧ parseParameterValue "42".data = JsonValue.num 42
    ∧ parseParameterValue "3.14".data = JsonValue.num (mkRat 157 50)
    ∧ parseParameterValue "\x7b\"a\":1\x7d".data
        = JsonValue.obj [("a".data, JsonValue.num 1)]
    ∧ parseParameterValue "hello".data = JsonValue.str "hello".data
    ∧ parseParameterValue "".data = JsonValue.num 0
    ∧ (parseInvokeBlock "t".data "<parameter name=\"p\"> 42 </parameter>".data []).parameters
        = [("p".data, JsonValue.num 42)] := by
  refine ⟨?_, ?_, ?_, ?_, ?_, rfl, rfl, rfl, rfl, rfl, rfl, rfl, rfl⟩
  · intro v jv h
    simp [parseParameterValue, h]
  · intro v h1 h2
    simp [parseParameterValue, h1, h2]
  · intro v h1 h2 h3
    simp [parseParameterValue, h1, h3]
  · intro v q h1 h2 h3 h4
    simp only [parseParameterValue, h1, if_neg h2, if_neg h3, h4]
  · intro v h1 h2 h3 h4
    cases hn : jsStringToNumber v with
    | nan => simp only [parseParameterValue, h1, if_neg h2, if_neg h3, hn]
    | inf b => simp only [parseParameterValue, h1, if_neg h2, if_neg h3, hn]
    | num q => exact absurd hn (h4 q)

/-- C1, witness: the number branch of the amended coercion order at the
concrete input `0x2A` (hexadecimal 42). -/
theorem c1_witness : parseParameterValue "0x2A".data = JsonValue.num 42 :=
  c1_amended_coercion.2.2.2.1 "0x2A".data 42 rfl (by decide) (by decide) rfl

/-- C2, counterexample: in a document whose container holds one
well-formed invoke block and one malformed (unmatched) invoke tag, the
parser returns `errors = []` and `success = true` — the claim demands a
non-empty `errors` entry and `overallOk = false` for this input. -/
theorem c2_counterexample :
    (parseToolCalls c2doc).success = true
    ∧ (parseToolCalls c2doc).errors = []
    ∧ (parseToolCalls c2doc).toolCalls
        = [⟨"ok".data, "ok".data, [("x".data, JsonValue.num 1)],
            "<invoke name=\"ok\"><parameter name=\"x\">1</parameter></invoke>".data⟩] :=
  ⟨rfl, rfl, rfl⟩

/-- C2, amended: `parseToolCalls` is total and never reports: for every
input it returns `success = true` and `errors = []` (a malformed invoke
block simply does not match the invoke pattern and is silently skipped),
and in the concrete mixed document the well-formed sibling invoke block is
still returned. -/
theorem c2_amended_silent_skip :
    (∀ t, (parseToolCalls t).success = true ∧ (parseToolCalls t).errors = [])
    ∧ (parseToolCalls c2doc).toolCalls.length = 1 := by
  refine ⟨?_, rfl⟩
  intro t
  by_cases h : fcMatchAll t = []
  · simp [parseToolCalls, h]
  · simp [parseToolCalls, h]

/-- C3, counterexample: after re-registering `SearchTool` with only its
OpenAPI function retained, `getTool` resolves the new instance (`1`) but
the inline-tag lookup still resolves the old instance (`0`): the stale
`xmlTools` entry survives, so not every lookup sees the most recent
registration. -/
theorem c3_counterexample :
    regTwice.getTool "SearchTool" = some 1
    ∧ regTwice.getXMLTool "web-search" = some 0 :=
  ⟨rfl, rfl⟩

/-- C3, amended: re-registration is last-write-wins and is not reported as
a conflict for the main registry — `getTool`, `hasTool` and
`getToolSchemas` always resolve the most recent registration — and the
inline index is updated only when the new filtered schema set retains at
least one XML-dialect schema; otherwise `xmlTools` is left unchanged (and
may keep a previous registration's entry). -/
theorem c3_amended_last_write_wins (r : ToolRegistry) (toolName : String)
    (allSchemas : List (String × SchemaInfo)) (functionNames : Option (List String)) :
    ((r.registerTool toolName allSchemas functionNames).getTool toolName = some r.nextId)
    ∧ ((r.registerTool toolName allSchemas functionNames).hasTool toolName = true)
    ∧ ((r.registerTool toolName allSchemas functionNames).getToolSchemas toolName
        = some (filterSchemas allSchemas functionNames))
    ∧ ((xmlEntries (filterSchemas allSchemas functionNames)).length > 0 →
        List.lookup toolName (r.registerTool toolName allSchemas functionNames).xmlTools
          = some ⟨r.nextId, filterSchemas allSchemas functionNames, functionNames⟩)
    ∧ ((xmlEntries (filterSchemas allSchemas functionNames)).length = 0 →
        (r.registerTool toolName allSchemas functionNames).xmlTools = r.xmlTools) := by
  refine ⟨getTool_registerTool r toolName allSchemas functionNames,
    hasTool_registerTool r toolName allSchemas functionNames,
    getToolSchemas_registerTool r toolName allSchemas functionNames, ?_, ?_⟩
  · intro h
    show List.lookup toolName
        (if (xmlEntries (filterSchemas allSchemas functionNames)).length > 0
          then insertReplace r.xmlTools toolName
            ⟨r.nextId, filterSchemas allSchemas functionNames, functionNames⟩
          else r.xmlTools) = _
    rw [if_pos h, lookup_insertReplace_self]
  · intro h
    show (if (xmlEntries (filterSchemas allSchemas functionNames)).length > 0
          then insertReplace r.xmlTools toolName
            ⟨r.nextId, filterSchemas allSchemas functionNames, functionNames⟩
          else r.xmlTools) = r.xmlTools
    rw [if_neg (by omega)]

/-- C3, witness: the amended statement at a fresh registration of the
search tool with no filter, whose filtered schema set keeps an XML
schema. -/
theorem c3_witness :
    (ToolRegistry.empty.registerTool "SearchTool" searchSchemas none).getTool "SearchTool"
      = some 0
    ∧ List.lookup "SearchTool"
        (ToolRegistry.empty.registerTool "SearchTool" searchSchemas none).xmlTools
      = some ⟨0, filterSchemas searchSchemas none, none⟩ :=
  ⟨(c3_amended_last_write_wins ToolRegistry.empty "SearchTool" searchSchemas none).1,
   (c3_amended_last_write_wins ToolRegistry.empty "SearchTool" searchSchemas none).2.2.2.1
     (by decide)⟩

/-- C4, counterexample: a tool-call value with `parameters = null` passes
`validateToolCall` (because `typeof null === 'object'`), although `null`
is not a mapping — the claim says validation must return `false` then. -/
theorem c4_counterexample :
    validateToolCall ⟨JSVal.str "a".data, JSVal.str "a".data, JSVal.null,
        JSVal.str "x".data⟩ = true
    ∧ isMapping JSVal.null = false :=
  ⟨rfl, rfl⟩

/-- C4, amended: for string-valued names and raw text,
`validateToolCall` returns `true` exactly when the two names and the raw
text are non-empty and `typeof parameters` is the string `object` — a
test that every mapping passes, but that `null` (and arrays) pass as
well; in particular `parameters = null` does not make validation fail. -/
theorem c4_amended_validate (a b raw : List Char) (p : JSVal)
    (h : jsTypeof p = "object".data) :
    validateToolCall ⟨JSVal.str a, JSVal.str b, p, JSVal.str raw⟩ = true
      ↔ (a ≠ [] ∧ b ≠ [] ∧ raw ≠ []) := by
  simp [validateToolCall, jsTruthy, h, and_assoc]

/-- C4, witness: the amended characterisation applied to a value with
`parameters = null` and non-empty strings elsewhere. -/
theorem c4_witness :
    validateToolCall ⟨JSVal.str "a".data, JSVal.str "b".data, JSVal.null,
        JSVal.str "x".data⟩ = true :=
  (c4_amended_validate "a".data "b".data "x".data JSVal.null rfl).mpr
    ⟨by decide, by decide, by decide⟩

/-- C6: when the text contains no match of the outer container pattern,
the parser returns success with no invocations, no errors, and the
original text itself (untrimmed) as the leftover. -/
theorem c6_no_container (t : List Char) (h : fcMatchAll t = []) :
    parseToolCalls t
      = { success := true, toolCalls := [], errors := [], remainingText := t } := by
  simp [parseToolCalls, h]

/-- C6, witness: prose without any container. -/
theorem c6_witness :
    parseToolCalls "just prose, no tool calls".data
      = { success := true, toolCalls := [], errors := [],
          remainingText := "just prose, no tool calls".data } :=
  c6_no_container "just prose, no tool calls".data (by decide)

/-- C7: registering with a non-empty allowed-function list stores exactly
the declared schemas whose names appear in the list — a listed name
resolves in the stored table to precisely its declared schema, and names
that are listed but not declared (or declared but not listed) are absent;
nothing about this raises an error (`registerTool` is total here). -/
theorem c7_allowed_function_filter (r : ToolRegistry) (toolName : String)
    (allSchemas : List (String × SchemaInfo)) (names : List String)
    (hne : names ≠ []) (k : String) (s : SchemaInfo) :
    ((r.registerTool toolName allSchemas (some names)).getToolSchemas toolName
        = some (filterSchemas allSchemas (some names)))
    ∧ (List.lookup k (filterSchemas allSchemas (some names)) = some s
        ↔ k ∈ names ∧ List.lookup k allSchemas = some s) := by
  refine ⟨getToolSchemas_registerTool r toolName allSchemas (some names), ?_⟩
  have hlen : names.length > 0 := by
    cases names with
    | nil => exact absurd rfl hne
    | cons n rest => simp
  have hfs : filterSchemas allSchemas (some names)
      = names.foldl
          (fun acc funcName =>
            match List.lookup funcName allSchemas with
            | some sch => insertReplace acc funcName sch
            | none => acc) [] := by
    simp only [filterSchemas]
    rw [if_pos hlen]
  rw [hfs, lookup_filterFold]
  constructor
  · intro h
    by_cases hc : k ∈ names ∧ (List.lookup k allSchemas).isSome
    · rw [if_pos hc] at h
      exact ⟨hc.1, h⟩
    · rw [if_neg hc] at h
      simp [List.lookup] at h
  · rintro ⟨hmem, hl⟩
    rw [if_pos ⟨hmem, by simp [hl]⟩]
    exact hl

/-- C7, witness: the spec's own example — a tool declaring `web_search`
and `summarize`, registered with allowed list `[web_search]`; the listed
name resolves to its declared schema. -/
theorem c7_witness :
    "web_search" ∈ ["web_search"]
      ∧ List.lookup "web_search" searchSchemas
          = some ⟨SchemaType.xml,
              ToolSchema.xml ⟨"web-search", "search the web", [], "<web-search/>"⟩⟩ :=
  (c7_allowed_function_filter ToolRegistry.empty "SearchTool" searchSchemas
      ["web_search"] (by decide) "web_search"
      ⟨SchemaType.xml,
        ToolSchema.xml ⟨"web-search", "search the web", [], "<web-search/>"⟩⟩).2.mp rfl

/-- C8: `getCapabilityByTag` is a linear scan over the inline-indexed
registrations: when no indexed registration declares the tag the result is
empty, and when the entries before some registration do not declare it
while that registration does (in particular when it is the unique
declarer), the scan returns that registration's instance. -/
theorem c8_tag_lookup (r : ToolRegistry) (tag : String) :
    ((∀ p ∈ r.xmlTools, declaresTag p.2 tag = false) → r.getXMLTool tag = none)
    ∧ (∀ pre n info post, r.xmlTools = pre ++ (n, info) :: post →
        (∀ p ∈ pre, declaresTag p.2 tag = false) →
        declaresTag info tag = true →
        (∀ p ∈ post, declaresTag p.2 tag = false) →
        r.getXMLTool tag = some info.instance_) := by
  constructor
  · intro h
    exact getXMLToolAux_none _ _ h
  · intro pre n info post hx hpre hd _
    show getXMLToolAux r.xmlTools tag = some info.instance_
    rw [hx]
    exact getXMLToolAux_first pre n info post tag hpre hd

/-- C8, witness: in a registry with two tools of which exactly one
declares `web-search`, the tag resolves to that tool's instance. -/
theorem c8_witness : regAB.getXMLTool "web-search" = some 1 :=
  (c8_tag_lookup regAB "web-search").2
    [("AlphaTool", ⟨0, alphaSchemas, none⟩)] "SearchTool" ⟨1, searchSchemas, none⟩ []
    rfl (by decide) (by decide) (by decide)

/-- C9: after `clear`, every lookup is empty for every tool name and tag
— `hasTool` is false, `getTool`, `getXMLTool` and `getToolSchemas` return
nothing, the name list is empty — and clearing again leaves the registry
in the same state (idempotence). -/
theorem c9_clear (r : ToolRegistry) (toolName tag : String) :
    r.clear.hasTool toolName = false
    ∧ r.clear.getTool toolName = none
    ∧ r.clear.getXMLTool tag = none
    ∧ r.clear.getToolSchemas toolName = none
    ∧ r.clear.getToolNames = []
    ∧ r.clear.clear = r.clear :=
  ⟨rfl, rfl, rfl, rfl, rfl, rfl⟩

/-- C10: registering with an empty allowed-function list applies no
filtering — the stored capability table is the tool's whole declared
schema table, the same as when the filter is omitted. -/
theorem c10_empty_filter (r : ToolRegistry) (toolName : String)
    (allSchemas : List (String × SchemaInfo)) :
    ((r.registerTool toolName allSchemas (some [])).getToolSchemas toolName
        = some allSchemas)
    ∧ ((r.registerTool toolName allSchemas (some [])).getToolSchemas toolName
        = (r.registerTool toolName allSchemas none).getToolSchemas toolName) := by
  have h1 := getToolSchemas_registerTool r toolName allSchemas (some [])
  have h2 := getToolSchemas_registerTool r toolName allSchemas none
  have hf : filterSchemas allSchemas (some []) = allSchemas := rfl
  have hf2 : filterSchemas allSchemas none = allSchemas := rfl
  rw [hf] at h1
  rw [hf2] at h2
  exact ⟨h1, h1.trans h2.symm⟩

set_option maxRecDepth 10000 in
/-- C5, witness: a concrete well-formed document — prose, one container
with two invoke blocks, prose — parsed via the well-formed-document
theorem. -/
theorem c5_witness :
    parseToolCalls (renderDoc "Hello ".data w5invs " bye".data)
      = { success := true
          toolCalls := w5invs.map expectedCall
          errors := []
          remainingText := jsTrim ("Hello ".data ++ " bye".data) } :=
  parseToolCalls_renderDoc "Hello ".data " bye".data w5invs
    (by decide) (by decide) (by decide) (by decide)

end Suna
